import Mathlib

/-!
Verification development for the Ferret file tool (src/utils.rs).

The filesystem is modelled as a tree of named entries.  Each entry records
the two failure knobs the Rust code is sensitive to:
  * `metaOk`   — whether reading this entry's metadata succeeds
                 (`entry.metadata()` in Rust);
  * `readable` — for directories, whether listing the children succeeds
                 (`fs::read_dir` / the walker's directory read).

Directory children are stored in the (arbitrary) order the operating
system returns them; the listing code sorts them by name itself, the
statistics walker does not.
-/

/-- Kind of a filesystem entry, as reported by a (non-following) metadata
call: `is_dir` / `is_file` / `is_symlink` on the entry itself. -/
inductive FKind where
  | file
  | dir
  | symlink
deriving DecidableEq, Repr

/-- A filesystem tree.  For a symlink, `target` holds the children of the
directory the link points at (empty when the target is not a directory);
the listing code never descends through the link, which the theorems below
make precise. -/
inductive FsTree where
  | file (name : String) (size : Nat) (metaOk : Bool)
  | dir (name : String) (children : List FsTree) (readable : Bool) (metaOk : Bool)
  | symlink (name : String) (metaOk : Bool) (target : List FsTree)

/-- The entry's own (base) name, `entry.file_name()` in Rust. -/
def FsTree.name : FsTree → String
  | .file n _ _ => n
  | .dir n _ _ _ => n
  | .symlink n _ _ => n

/-- Whether `entry.metadata()` succeeds for this entry. -/
def FsTree.metaOk : FsTree → Bool
  | .file _ _ m => m
  | .dir _ _ _ m => m
  | .symlink _ m _ => m

/-- The kind a (non-following) metadata call reports. -/
def FsTree.kind : FsTree → FKind
  | .file .. => .file
  | .dir .. => .dir
  | .symlink .. => .symlink

/-- `metadata.is_dir()` for the entry itself (false for a symlink, even
one pointing at a directory, since the metadata is not followed). -/
def FsTree.isDir : FsTree → Bool
  | .dir .. => true
  | _ => false

/-- The size metadata reports (0 for directories and symlinks, as the
statistics code only reads `len()` for files). -/
def FsTree.size : FsTree → Nat
  | .file _ s _ => s
  | .dir .. => 0
  | .symlink .. => 0

/-- `file_name.starts_with('.')` — whether the first character of the
name is a dot. -/
def startsWithDot (s : String) : Bool := s.data.head? == some '.'

/-- Lexicographic less-or-equal on character lists: the order Rust's
`OsString` comparison induces on (valid-Unicode) file names, since UTF-8
byte order coincides with code-point order. -/
def charListLe : List Char → List Char → Bool
  | [], _ => true
  | _ :: _, [] => false
  | a :: as, b :: bs => if a = b then charListLe as bs else decide (a < b)

/-- The name order the listing code sorts by. -/
def nameLe (a b : FsTree) : Prop := charListLe a.name.data b.name.data = true

instance : DecidableRel nameLe := fun a b => by unfold nameLe; infer_instance

/-- `entries.sort_by_key(|e| e.file_name())` — stable sort of a directory's
children by file name (Rust's stable `sort_by_key`; insertion sort is
stable in the same sense). -/
def sortByName (l : List FsTree) : List FsTree :=
  List.insertionSort nameLe l

theorem perm_sizeOf_eq {α : Type} [SizeOf α] {l₁ l₂ : List α}
    (h : l₁.Perm l₂) : sizeOf l₁ = sizeOf l₂ := by
  induction h with
  | nil => rfl
  | cons x _ ih => simp [ih]
  | swap x y l => simp; omega
  | trans _ _ ih₁ ih₂ => omega

theorem sizeOf_sortByName (l : List FsTree) : sizeOf (sortByName l) = sizeOf l :=
  perm_sizeOf_eq (List.perm_insertionSort _ l)

/-- One observation yielded by the `WalkDir` iterator in `show_stats`:
the fields of the entry that the statistics loop actually reads. -/
structure WDirEntry where
  depth : Nat
  name : String
  kind : FKind
  size : Nat
  metaOk : Bool
deriving DecidableEq, Repr

/-- Is depth `d` still yielded under an optional `max_depth` limit? -/
def withinDepth : Option Nat → Nat → Bool
  | none, _ => true
  | some k, d => d ≤ k

/-- May the walker descend from depth `d` under an optional `max_depth`
limit (children would sit at depth `d + 1`)? -/
def mayDescend : Option Nat → Nat → Bool
  | none, _ => true
  | some k, d => d < k

mutual

/-- The sequence of entries the `WalkDir` iterator of `show_stats` yields
(after `filter_map(|e| e.ok())`), starting from `t` at depth `d` with an
optional `max_depth` limit.  A directory whose listing fails yields itself
and then an `Err` that `filter_map` drops, so its children are skipped and
the walk continues; symlinks are not followed (WalkDir default).  Children
come in operating-system order — this walker does not sort. -/
def walkdir_from (lim : Option Nat) (t : FsTree) (d : Nat) : List WDirEntry :=
  if withinDepth lim d then
    match t with
    | .file n sz m => [⟨d, n, .file, sz, m⟩]
    | .symlink n m _ => [⟨d, n, .symlink, 0, m⟩]
    | .dir n cs readable m =>
      ⟨d, n, .dir, 0, m⟩ ::
        (if readable && mayDescend lim d then walkdir_kids lim cs (d + 1) else [])
  else []

/-- The walker's traversal of a list of sibling subtrees, in order. -/
def walkdir_kids (lim : Option Nat) (l : List FsTree) (d : Nat) : List WDirEntry :=
  match l with
  | [] => []
  | c :: rest => walkdir_from lim c d ++ walkdir_kids lim rest d

end

/-- `entry.path().extension().and_then(to_str).unwrap_or("(no extension)")
.to_lowercase()` — the extension key `show_stats` files a file under.
Rust's `Path::extension` is the part of the base name after its last dot,
and is absent when there is no dot or when the name is of the form
`.hidden` (a leading dot with no further dot); `to_lowercase` maps the
characters to lower case.  `lastDotSplit` returns the characters after
the last dot, if any. -/
def lastDotSplit : List Char → Option (List Char)
  | [] => none
  | c :: rest =>
    match lastDotSplit rest with
    | some e => some e
    | none => if c = '.' then some rest else none

def ext_of (name : String) : String :=
  match name.data with
  | [] => "(no extension)"
  | c0 :: rest =>
    let body := if c0 = '.' then rest else c0 :: rest
    match lastDotSplit body with
    | none => "(no extension)"
    | some e => String.mk (e.map Char.toLower)

/-- The size-distribution bucket chosen by the `match size` in
`show_stats`. -/
def size_category (size : Nat) : String :=
  if size ≤ 1024 then "0-1KB"
  else if size ≤ 102400 then "1KB-100KB"
  else if size ≤ 1048576 then "100KB-1MB"
  else if size ≤ 10485760 then "1MB-10MB"
  else if size ≤ 104857600 then "10MB-100MB"
  else "100MB+"

/-- `extension_stats.entry(ext).or_insert((0, 0)); stat.0 += 1; stat.1 += size`
on the contents of the hash map, viewed as an association list keyed by
extension.  (The list order is the insertion order; the real `HashMap`
iterates in a seed-dependent order, which is modelled separately where it
matters.) -/
def bump_ext (k : String) (sz : Nat) : List (String × Nat × Nat) → List (String × Nat × Nat)
  | [] => [(k, 1, sz)]
  | (k', c, s) :: rest =>
    if k' = k then (k', c + 1, s + sz) :: rest
    else (k', c, s) :: bump_ext k sz rest

/-- `*size_distribution.entry(category).or_insert(0) += 1` on the map's
contents. -/
def bump_dist (k : String) : List (String × Nat) → List (String × Nat)
  | [] => [(k, 1)]
  | (k', c) :: rest =>
    if k' = k then (k', c + 1) :: rest
    else (k', c) :: bump_dist k rest

/-- The accumulators of the statistics loop in `show_stats`. -/
structure Stats where
  total_files : Nat := 0
  total_dirs : Nat := 0
  total_size : Nat := 0
  ext_stats : List (String × Nat × Nat) := []
  size_dist : List (String × Nat) := []
deriving DecidableEq, Repr

/-- One iteration of the statistics loop of `show_stats` (src/utils.rs,
lines 36–79): skip a dot-named entry (at depth > 0) when hidden files are
excluded, count directories and files, and — only when the entry's
metadata is readable — accumulate size, extension and size-distribution
data.  Note the file counter is incremented before the metadata read. -/
def stats_step (hidden : Bool) (st : Stats) (e : WDirEntry) : Stats :=
  if !hidden && startsWithDot e.name && e.depth != 0 then st
  else
    match e.kind with
    | .dir => { st with total_dirs := st.total_dirs + 1 }
    | .symlink => st
    | .file =>
      let st' := { st with total_files := st.total_files + 1 }
      if e.metaOk then
        { st' with
            total_size := st'.total_size + e.size
            ext_stats := bump_ext (ext_of e.name) e.size st'.ext_stats
            size_dist := bump_dist (size_category e.size) st'.size_dist }
      else st'

/-- The counting phase of `show_stats`: walk the tree (with `max_depth(1)`
when `recursive` is false) and fold the statistics loop over the yielded
entries. -/
def show_stats_counts (t : FsTree) (recursive hidden : Bool) : Stats :=
  let lim : Option Nat := if recursive then none else some 1
  (walkdir_from lim t 0).foldl (stats_step hidden) {}

/-- The `file_sizes` collection of `show_stats` (src/utils.rs, lines
137–148): a fresh `WalkDir::new(source_path)` with no depth limit and no
hidden-file filter, keeping files whose metadata is readable.  Neither
`recursive` nor `hidden` is consulted here. -/
def file_sizes (t : FsTree) : List (String × Nat) :=
  (walkdir_from none t 0).filterMap fun e =>
    if e.kind = FKind.file then
      if e.metaOk then some (e.name, e.size) else none
    else none

/-- The rows of the "largest files" table: `file_sizes` sorted by size
descending (stable) and truncated to ten rows. -/
def show_stats_largest (t : FsTree) : List (String × Nat) :=
  (List.insertionSort (fun a b : String × Nat => b.2 ≤ a.2) (file_sizes t)).take 10

/-- One row of the "Top File Types" table as rendered by `show_stats`:
the displayed extension (dotted, or the no-extension placeholder), the
count and the total size. -/
def render_ext_row (r : String × Nat × Nat) : String × Nat × Nat :=
  (if r.1 = "" ∨ r.1 = "(no extension)" then "(no extension)" else "." ++ r.1,
   r.2.1, r.2.2)

/-- The "Top File Types" table produced from the extension map's contents
in the order the `HashMap` iterates them: a stable sort by count
descending (`ext_vec.sort_by(|a, b| b.1.0.cmp(&a.1.0))`), truncated to
fifteen rows and rendered.  The argument is the map's contents in
iteration order; Rust's `HashMap` iteration order depends on a random
per-process seed, so it is a parameter here, not a function of the tree. -/
def ext_table (iter : List (String × Nat × Nat)) : List (String × Nat × Nat) :=
  ((List.insertionSort (fun a b : String × Nat × Nat => b.2.1 ≤ a.2.1) iter).take 15).map
    render_ext_row

/-- One printed line of the `ls` listing: either the directory header
("path:" / "name:") `list_recursive` prints before a directory's contents,
or an entry line for one child.  The formatting details (indentation
string, colors, trailing `/`, the long format's permission/size/time
columns) do not change which entries appear on which line, so a line is
modelled by its kind, depth and the entry name it shows. -/
inductive Ev where
  | header (depth : Nat) (name : String)
  | entryLine (depth : Nat) (name : String)
deriving DecidableEq, Repr

mutual

/-- `list_recursive` (src/utils.rs, lines 287–368), short format.  The
output is the list of printed lines together with a success flag: `false`
means the function returned early with an `Err` (via `?`), and the lines
are exactly those printed before the failure.  A file root prints its
name; otherwise a header is printed, then `fs::read_dir(path)?` — whose
failure aborts with only the header printed — then the sorted children
are processed in order.  The root path is printed whatever its name; the
symlink case only arises for the root argument, where the operating
system has already resolved the path, so it is rendered as a plain entry
line. -/
def list_recursive (show_all : Bool) (t : FsTree) (d : Nat) : List Ev × Bool :=
  match t with
  | .file n _ _ => ([.entryLine d n], true)
  | .symlink n _ _ => ([.entryLine d n], true)
  | .dir n cs readable _ =>
    if readable then
      let r := list_children show_all (sortByName cs) d
      (.header d n :: r.1, r.2)
    else ([.header d n], false)
termination_by sizeOf t
decreasing_by
  simp_wf
  rw [sizeOf_sortByName]
  omega

/-- The per-entry loop of `list_recursive` over the sorted children: a
dot-named entry is skipped entirely (before the metadata read) when
`show_all` is false; then `entry.metadata()?` aborts the whole listing on
failure; otherwise the entry line is printed, and for a directory the
function recurses (with `?`) right after its line. -/
def list_children (show_all : Bool) (l : List FsTree) (d : Nat) : List Ev × Bool :=
  match l with
  | [] => ([], true)
  | e :: rest =>
    if !show_all && startsWithDot e.name then
      list_children show_all rest d
    else if e.metaOk then
      if e.isDir then
        let sub := list_recursive show_all e (d + 1)
        if sub.2 then
          let r := list_children show_all rest d
          (.entryLine d e.name :: sub.1 ++ r.1, r.2)
        else (.entryLine d e.name :: sub.1, false)
      else
        let r := list_children show_all rest d
        (.entryLine d e.name :: r.1, r.2)
    else ([], false)
termination_by sizeOf l
decreasing_by
  all_goals simp_wf <;> omega

end

/-- The per-entry loop of `list_directory` (src/utils.rs, lines 248–282),
short format: skip hidden entries, `entry.metadata()?` aborts on failure,
otherwise print the entry's name; no recursion and no headers. -/
def list_dir_children (show_all : Bool) (l : List FsTree) : List Ev × Bool :=
  match l with
  | [] => ([], true)
  | e :: rest =>
    if !show_all && startsWithDot e.name then
      list_dir_children show_all rest
    else if e.metaOk then
      let r := list_dir_children show_all rest
      (.entryLine 0 e.name :: r.1, r.2)
    else ([], false)

/-- `list_directory` (src/utils.rs, lines 224–285), short format: a file
root prints its path; otherwise `fs::read_dir(path)?` — failure aborts
with nothing printed — then the sorted children are printed in order. -/
def list_directory (show_all : Bool) (t : FsTree) : List Ev × Bool :=
  match t with
  | .file n _ _ => ([.entryLine 0 n], true)
  | .symlink n _ _ => ([.entryLine 0 n], true)
  | .dir _ cs readable _ =>
    if readable then list_dir_children show_all (sortByName cs)
    else ([], false)

/-- The overall result of `list_files`. -/
inductive LsResult where
  | ok
  | ioError
  | notFound (msg : String)
deriving DecidableEq, Repr

/-- `list_files` (src/utils.rs, lines 199–222): `resolved` is what the
filesystem holds at `path` (`none` when the path does not exist).  A
missing path bails out with "Path does not exist: {path}" before any
listing; otherwise the listing is dispatched on `recursive` and its error,
if any, is propagated. -/
def list_files (path : String) (resolved : Option FsTree)
    (show_all recursive : Bool) : List Ev × LsResult :=
  match resolved with
  | none => ([], .notFound ("Path does not exist: " ++ path))
  | some t =>
    let r := if recursive then list_recursive show_all t 0 else list_directory show_all t
    (r.1, if r.2 then .ok else .ioError)

/-- `create_bar` (src/utils.rs, lines 183–196).  The Rust code computes
`filled` as `((value as f64 / max as f64) * width as f64) as usize`, the
truncation of an f64 product; it is modelled as the exact rational floor
`value * width / max`.  For `value ≤ max` both the f64 truncation and the
exact floor lie in `[0, width]`, which is all the claims below use.  The
`colored` escape sequences around the block runs are omitted; the block
characters themselves are kept. -/
def create_bar (value mx width : Nat) : String :=
  if mx = 0 then ""
  else
    let filled := value * width / mx
    let empty := width - filled
    String.mk (List.replicate filled '█' ++ List.replicate empty '░')

/-- `format_permissions` (src/utils.rs, lines 449–480): the file-type
character followed by the owner, group and other `rwx` triples. -/
def format_permissions (mode : Nat) : String :=
  let fileType : Char :=
    if mode &&& 0o170000 = 0o040000 then 'd'
    else if mode &&& 0o170000 = 0o120000 then 'l'
    else '-'
  let user := String.mk
    [if mode &&& 0o400 ≠ 0 then 'r' else '-',
     if mode &&& 0o200 ≠ 0 then 'w' else '-',
     if mode &&& 0o100 ≠ 0 then 'x' else '-']
  let group := String.mk
    [if mode &&& 0o040 ≠ 0 then 'r' else '-',
     if mode &&& 0o020 ≠ 0 then 'w' else '-',
     if mode &&& 0o010 ≠ 0 then 'x' else '-']
  let other := String.mk
    [if mode &&& 0o004 ≠ 0 then 'r' else '-',
     if mode &&& 0o002 ≠ 0 then 'w' else '-',
     if mode &&& 0o001 ≠ 0 then 'x' else '-']
  String.mk [fileType] ++ user ++ group ++ other

/-- `explain_permissions` (src/utils.rs, lines 483–506): the same three
`rwx` triples rendered as an explanatory tuple. -/
def explain_permissions (mode : Nat) : String :=
  let user := String.mk
    [if mode &&& 0o400 ≠ 0 then 'r' else '-',
     if mode &&& 0o200 ≠ 0 then 'w' else '-',
     if mode &&& 0o100 ≠ 0 then 'x' else '-']
  let group := String.mk
    [if mode &&& 0o040 ≠ 0 then 'r' else '-',
     if mode &&& 0o020 ≠ 0 then 'w' else '-',
     if mode &&& 0o010 ≠ 0 then 'x' else '-']
  let other := String.mk
    [if mode &&& 0o004 ≠ 0 then 'r' else '-',
     if mode &&& 0o002 ≠ 0 then 'w' else '-',
     if mode &&& 0o001 ≠ 0 then 'x' else '-']
  "(owner:" ++ user ++ ", group:" ++ group ++ ", other:" ++ other ++ ")"

/-- The names shown on the entry lines of a listing, in print order
(headers carry no entry of their own). -/
def ev_names (l : List Ev) : List String :=
  l.filterMap fun e =>
    match e with
    | .entryLine _ n => some n
    | .header _ _ => none

mutual

/-- Every metadata read in the subtree succeeds and every directory in it
can be listed — the failure-free trees on which a traversal runs to
completion. -/
def all_ok : FsTree → Bool
  | .file _ _ m => m
  | .symlink _ m _ => m
  | .dir _ cs readable m => m && readable && all_ok_list cs

def all_ok_list : List FsTree → Bool
  | [] => true
  | c :: rest => all_ok c && all_ok_list rest

end

mutual

/-- The emission order the specification prescribes for a recursive
listing: at each directory, the children in ascending file-name order,
each hidden-filtered child's name followed — depth first — by the names
of its own subtree when it is a directory.  (The root directory itself is
announced by a header, not an entry line, so it contributes no name.)
This is the specification-side description that `list_recursive` is
compared against. -/
def spec_dfs_names (show_all : Bool) (t : FsTree) : List String :=
  match t with
  | .file n _ _ => [n]
  | .symlink n _ _ => [n]
  | .dir _ cs _ _ => spec_dfs_kids show_all (sortByName cs)
termination_by sizeOf t
decreasing_by
  simp_wf
  rw [sizeOf_sortByName]
  omega

def spec_dfs_kids (show_all : Bool) (l : List FsTree) : List String :=
  match l with
  | [] => []
  | c :: rest =>
    (if !show_all && startsWithDot c.name then []
     else if c.isDir then c.name :: spec_dfs_names show_all c
     else [c.name]) ++ spec_dfs_kids show_all rest
termination_by sizeOf l
decreasing_by
  all_goals simp_wf <;> omega

end

/-- A root whose only child is a dot-named directory containing a plainly
named file. -/
def sampleHidden : FsTree :=
  .dir "r" [.dir ".git" [.file "config" 5 true] true true] true true

/-- A root with one metadata-unreadable file and one readable sibling. -/
def sampleMetaFail : FsTree :=
  .dir "r" [.file "bad" 5 false, .file "good" 3 true] true true

/-- The same root with the unreadable entry absent. -/
def sampleMetaFailClean : FsTree :=
  .dir "r" [.file "good" 3 true] true true

/-- A root with an unlistable subdirectory and a readable sibling sorting
after it. -/
def sampleUnreadable : FsTree :=
  .dir "r" [.file "b" 1 true, .dir "a" [.file "x" 2 true] false true] true true

/-- A root with a file two levels down. -/
def sampleDeep : FsTree :=
  .dir "r" [.dir "sub" [.file "deep.txt" 5 true] true true] true true

/-- A root with two files of distinct extensions and equal counts. -/
def sampleExt : FsTree :=
  .dir "r" [.file "a.x" 10 true, .file "b.y" 20 true] true true

/-- Unsorted, failure-free children: a file, a subdirectory with unsorted
children of its own, and a symlink. -/
def sampleOkKids : List FsTree :=
  [.file "b.txt" 1 true, .dir "a" [.file "z" 2 true, .file "y" 3 true] true true,
   .symlink "c" true [.file "inside" 9 true]]

/-- A failure-free tree with unsorted children and a subdirectory. -/
def sampleOk : FsTree := .dir "r" sampleOkKids true true

/-- C8: `create_bar` never divides by zero — it returns the empty string
when `max = 0` — and for `max > 0`, `value ≤ max` the bar is a run of
`filled ≤ width` full blocks followed by exactly `width - filled` empty
blocks, so the total block count is exactly `width`. -/
theorem claimC8 (value mx width : Nat) (hmx : 0 < mx) (hv : value ≤ mx) :
    create_bar value 0 width = ""
    ∧ (create_bar value mx width).data =
        List.replicate (value * width / mx) '█'
          ++ List.replicate (width - value * width / mx) '░'
    ∧ value * width / mx ≤ width
    ∧ (create_bar value mx width).data.length = width := by
  have hfill : value * width / mx ≤ width := by
    calc value * width / mx ≤ mx * width / mx :=
          Nat.div_le_div_right (Nat.mul_le_mul_right width hv)
      _ = width := Nat.mul_div_cancel_left width hmx
  refine ⟨rfl, ?_, hfill, ?_⟩
  · simp [create_bar, Nat.pos_iff_ne_zero.mp hmx]
  · simp [create_bar, Nat.pos_iff_ne_zero.mp hmx]
    omega

theorem claimC8_witness :
    create_bar 1 0 4 = ""
    ∧ (create_bar 1 2 4).data =
        List.replicate (1 * 4 / 2) '█' ++ List.replicate (4 - 1 * 4 / 2) '░'
    ∧ 1 * 4 / 2 ≤ 4
    ∧ (create_bar 1 2 4).data.length = 4 :=
  claimC8 1 2 4 (by decide) (by decide)

/-- C9: `format_permissions` always returns exactly 10 characters; its
first character is 'd' when the file-type bits are 0o040000, 'l' when
they are 0o120000 and '-' otherwise; and its last nine characters are
exactly the owner, group and other triples that `explain_permissions`
embeds for the same mode, so the two functions agree on the permission
bits. -/
theorem claimC9 (mode : Nat) :
    (format_permissions mode).length = 10
    ∧ (format_permissions mode).data.head? =
        some (if mode &&& 0o170000 = 0o040000 then 'd'
          else if mode &&& 0o170000 = 0o120000 then 'l' else '-')
    ∧ (explain_permissions mode).data =
        "(owner:".data ++ ((format_permissions mode).data.drop 1).take 3
        ++ ", group:".data ++ (((format_permissions mode).data.drop 1).drop 3).take 3
        ++ ", other:".data ++ ((format_permissions mode).data.drop 1).drop 6
        ++ ")".data :=
  ⟨rfl, rfl, rfl⟩

/-- C10: for a nonexistent path, `list_files` returns the error
"Path does not exist: {path}" — which mentions the path — before listing
anything, and produces no output; for an existing path it runs the
dispatched listing, returns its output, and succeeds exactly when the
listing does. -/
theorem claimC10 (path : String) (t : FsTree) (sa rec : Bool) :
    list_files path none sa rec = ([], .notFound ("Path does not exist: " ++ path))
    ∧ ((list_files path (some t) sa rec).2 = LsResult.ok ↔
        (if rec then list_recursive sa t 0 else list_directory sa t).2 = true)
    ∧ (list_files path (some t) sa rec).1 =
        (if rec then list_recursive sa t 0 else list_directory sa t).1 := by
  refine ⟨rfl, ?_, rfl⟩
  simp only [list_files]
  cases h : (if rec then list_recursive sa t 0 else list_directory sa t).2 <;> simp [h]

/-- C1 (counterexample): with hidden files excluded, the stats walk of
`show_stats` still counts entries beneath a dot-named directory.  On a
root containing only `.git/config`, the total file count is 1 (the claim
implies 0, since `config` lies beneath a dot-named directory), and the
walker does yield the depth-2 entry `config`; moreover the unfiltered
"largest files" walk even lists `config` itself. -/
theorem claimC1_counterexample :
    (show_stats_counts sampleHidden true false).total_files = 1
    ∧ ⟨2, "config", FKind.file, 5, true⟩ ∈ walkdir_from none sampleHidden 0
    ∧ ("config", 5) ∈ show_stats_largest sampleHidden := by
  refine ⟨by decide, by decide, by decide⟩

/-- C1 (amended): in `list_recursive` and `list_directory`, a dot-named
entry is neither emitted nor descended into when hidden files are
excluded — the whole entry is skipped before its metadata is read — and
the root is exempt (its header is printed whatever its name).  In
`show_stats`, only the dot-named entry itself is skipped from the counts;
the walker still descends beneath dot-named directories (and the
largest-files walk applies no hidden filter at all), as the
counterexample shows. -/
theorem claimC1_amended :
    (∀ e rest d, startsWithDot e.name = true →
      list_children false (e :: rest) d = list_children false rest d)
    ∧ (∀ e rest, startsWithDot e.name = true →
      list_dir_children false (e :: rest) = list_dir_children false rest)
    ∧ (∀ n cs r m d,
        (list_recursive false (FsTree.dir n cs r m) d).1.head? = some (Ev.header d n))
    ∧ (∀ st e, startsWithDot e.name = true → e.depth ≠ 0 →
        stats_step false st e = st) := by
  refine ⟨?_, ?_, ?_, ?_⟩
  · intro e rest d h
    rw [list_children]
    simp [h]
  · intro e rest h
    rw [list_dir_children]
    simp [h]
  · intro n cs r m d
    rw [list_recursive]
    split <;> rfl
  · intro st e h hd
    simp [stats_step, h, hd]

theorem claimC1_amended_witness :
    (list_children false (FsTree.dir ".git" [] true true :: []) 3 =
      list_children false [] 3)
    ∧ (list_dir_children false (FsTree.file ".env" 1 true :: []) =
      list_dir_children false [])
    ∧ (stats_step false {} ⟨1, ".cache", FKind.dir, 0, true⟩ = {}) :=
  ⟨claimC1_amended.1 _ [] 3 (by decide),
   claimC1_amended.2.1 _ [] (by decide),
   claimC1_amended.2.2.2 {} _ (by decide) (by decide)⟩

/-- C2 (counterexample): in `list_recursive` a metadata read failure on
one entry makes the whole operation return an error.  On a root holding
`bad` (metadata unreadable) and `good`, the recursive listing stops at
`bad` with an I/O error: `good` is never shown, although with `bad`
absent the listing succeeds and shows `good`. -/
theorem claimC2_counterexample :
    list_files "r" (some sampleMetaFail) true true = ([.header 0 "r"], .ioError)
    ∧ list_files "r" (some sampleMetaFailClean) true true =
        ([.header 0 "r", .entryLine 0 "good"], .ok) := by
  constructor <;>
    simp [list_files, sampleMetaFail, sampleMetaFailClean, list_recursive, list_children,
      sortByName, List.insertionSort, List.orderedInsert, nameLe, charListLe,
      FsTree.name, FsTree.metaOk, FsTree.isDir, startsWithDot]

/-- C2 (amended): only the stats walk of `show_stats` survives a
metadata failure — the walk continues, and the affected file still
increments the file count while contributing nothing to the size,
extension or distribution data.  In `list_recursive` and
`list_directory` a metadata read failure on a non-skipped entry aborts
the rest of the listing with an error. -/
theorem claimC2_amended :
    (∀ st d n sz, stats_step true st ⟨d, n, .file, sz, false⟩ =
      { st with total_files := st.total_files + 1 })
    ∧ (∀ n sz rest d, list_children true (.file n sz false :: rest) d = ([], false))
    ∧ (∀ n sz rest, list_dir_children true (.file n sz false :: rest) = ([], false)) := by
  refine ⟨?_, ?_, ?_⟩
  · intro st d n sz
    simp [stats_step]
  · intro n sz rest d
    rw [list_children]
    simp [FsTree.metaOk]
  · intro n sz rest
    rw [list_dir_children]
    simp [FsTree.metaOk]

/-- C3 (counterexample): in `list_recursive` a failure to list one
subdirectory aborts the whole operation.  On a root holding the
unlistable directory `a` and the sibling file `b` (which sorts after
`a`), the recursive listing returns an I/O error and `b` is never
visited — the subtree is not the only thing omitted, and the operation
does not return success. -/
theorem claimC3_counterexample :
    list_files "r" (some sampleUnreadable) true true =
      ([.header 0 "r", .entryLine 0 "a", .header 1 "a"], .ioError) := by
  simp [list_files, sampleUnreadable, list_recursive, list_children,
    sortByName, List.insertionSort, List.orderedInsert, nameLe, charListLe,
    FsTree.name, FsTree.metaOk, FsTree.isDir, startsWithDot]

/-- C3 (amended): only the stats walk of `show_stats` treats an
unlistable directory as non-fatal — the walker yields the directory
itself, skips its children, and processes each sibling independently.
In `list_recursive` the `read_dir` failure propagates: the entry line and
header are printed and then the whole listing aborts, skipping the
remaining siblings. -/
theorem claimC3_amended :
    (∀ lim n cs m d, walkdir_from lim (FsTree.dir n cs false m) d =
      if withinDepth lim d then [⟨d, n, .dir, 0, m⟩] else [])
    ∧ (∀ lim c rest d, walkdir_kids lim (c :: rest) d =
        walkdir_from lim c d ++ walkdir_kids lim rest d)
    ∧ (∀ n cs rest d, list_children true (FsTree.dir n cs false true :: rest) d =
        ([.entryLine d n, .header (d + 1) n], false)) := by
  refine ⟨?_, ?_, ?_⟩
  · intro lim n cs m d
    rw [walkdir_from]
    split <;> simp
  · intro lim c rest d
    rw [walkdir_kids]
  · intro n cs rest d
    rw [list_children]
    simp [FsTree.metaOk, FsTree.isDir, FsTree.name, list_recursive]

theorem fstree_one_le_sizeOf (t : FsTree) : 1 ≤ sizeOf t := by
  cases t <;> (simp; try omega)

/-- Entries yielded under a `max_depth` limit never lie deeper than the
limit (the walker only yields at depths within the limit and only
descends while strictly below it). -/
theorem walkdir_depth_le (k : Nat) :
    ∀ fuel : Nat,
      (∀ t d, sizeOf t ≤ fuel → ∀ e ∈ walkdir_from (some k) t d, e.depth ≤ k)
      ∧ (∀ l d, sizeOf l ≤ fuel → ∀ e ∈ walkdir_kids (some k) l d, e.depth ≤ k) := by
  intro fuel
  induction fuel with
  | zero =>
    constructor
    · intro t d ht
      exact absurd ht (by have := fstree_one_le_sizeOf t; omega)
    · intro l d hl
      exact absurd hl (by cases l <;> simp)
  | succ n ih =>
    obtain ⟨iht, ihl⟩ := ih
    constructor
    · intro t d ht e he
      rw [walkdir_from.eq_def] at he
      by_cases hd : withinDepth (some k) d = true
      · have hdk : d ≤ k := by simpa [withinDepth] using hd
        rw [if_pos hd] at he
        cases t with
        | file nm sz m =>
          simp at he
          subst he
          simpa using hdk
        | symlink nm m tg =>
          simp at he
          subst he
          simpa using hdk
        | dir nm cs readable m =>
          simp only [List.mem_cons] at he
          rcases he with he | he
          · subst he; simpa using hdk
          · by_cases hrd : (readable && mayDescend (some k) d) = true
            · rw [if_pos hrd] at he
              exact ihl cs (d + 1) (by simp at ht; omega) e he
            · rw [if_neg hrd] at he
              simp at he
      · rw [if_neg hd] at he
        simp at he
    · intro l d hl e he
      cases l with
      | nil => rw [walkdir_kids.eq_def] at he; simp at he
      | cons c rest =>
        rw [walkdir_kids.eq_def] at he
        rcases List.mem_append.mp he with he | he
        · exact iht c d (by simp at hl; omega) e he
        · exact ihl rest d (by simp at hl; omega) e he

/-- C5 (counterexample): the "largest files" section of `show_stats`
walks the tree with a fresh unlimited `WalkDir` — no `max_depth(1)` and
no hidden filter — so even with `recursive = false` the depth-2 file
`deep.txt` is read and displayed there, while the counting walk does
respect the limit and counts no file at all on the same tree. -/
theorem claimC5_counterexample :
    ⟨2, "deep.txt", FKind.file, 5, true⟩ ∈ walkdir_from none sampleDeep 0
    ∧ ("deep.txt", 5) ∈ show_stats_largest sampleDeep
    ∧ (show_stats_counts sampleDeep false false).total_files = 0 := by
  refine ⟨by decide, by decide, by decide⟩

/-- C5 (amended): with `recursive = false` the counting walk of
`show_stats` is depth-limited to 1, so no entry at depth 2 or greater is
counted in the totals, size distribution or extension sections; the
"largest files" section, however, uses a fresh unlimited walker, so files
at any depth are still read and displayed there (see the
counterexample). -/
theorem claimC5_amended :
    (∀ t, ∀ e ∈ walkdir_from (some 1) t 0, e.depth ≤ 1)
    ∧ (∀ t hidden, show_stats_counts t false hidden =
        (walkdir_from (some 1) t 0).foldl (stats_step hidden) {}) := by
  constructor
  · intro t e he
    exact (walkdir_depth_le 1 (sizeOf t)).1 t 0 le_rfl e he
  · intro t hidden
    rfl

theorem claimC5_amended_witness :
    WDirEntry.depth ⟨0, "r", FKind.dir, 0, true⟩ ≤ 1 :=
  claimC5_amended.1 sampleDeep ⟨0, "r", FKind.dir, 0, true⟩ (by decide)

/-- C7 (counterexample): the rendered "Top File Types" table is not a
function of the tree and the options alone.  On a tree with two
extensions of equal count, both displayed orders arise from valid
iteration orders of the same extension map (Rust's `HashMap` iterates in
a random, per-process order), because the stable sort compares counts
only — and the two renderings differ.  Repeated runs over the unchanged
tree can therefore produce different output. -/
theorem claimC7_counterexample :
    List.Perm [("x", 1, 10), ("y", 1, 20)]
        ((show_stats_counts sampleExt true false).ext_stats)
    ∧ List.Perm [("y", 1, 20), ("x", 1, 10)]
        ((show_stats_counts sampleExt true false).ext_stats)
    ∧ ext_table [("x", 1, 10), ("y", 1, 20)] ≠ ext_table [("y", 1, 20), ("x", 1, 10)] := by
  refine ⟨by decide, by decide, by decide⟩

/-- C7 (amended): the listing and the statistics are deterministic given
the directory order and the extension map's iteration order; and whenever
all extension counts are distinct, the rendered "Top File Types" table is
the same for every iteration order of the map, because the sort by count
then determines the rows completely.  (Only rows with tied counts can
differ between runs, as the counterexample exhibits.) -/
theorem claimC7_amended (iter₁ iter₂ : List (String × Nat × Nat))
    (hp : iter₁.Perm iter₂)
    (hd : iter₁.Pairwise (fun a b => a.2.1 ≠ b.2.1)) :
    ext_table iter₁ = ext_table iter₂ := by
  haveI : IsTrans (String × Nat × Nat) (fun a b => b.2.1 ≤ a.2.1) :=
    ⟨fun a b c h1 h2 => le_trans h2 h1⟩
  haveI : IsTotal (String × Nat × Nat) (fun a b => b.2.1 ≤ a.2.1) :=
    ⟨fun a b => le_total b.2.1 a.2.1⟩
  haveI : IsAntisymm (String × Nat × Nat) (fun a b => b.2.1 < a.2.1) :=
    ⟨fun a b h1 h2 => absurd h2 (Nat.lt_asymm h1)⟩
  have hperm₁ := List.perm_insertionSort (fun a b : String × Nat × Nat => b.2.1 ≤ a.2.1) iter₁
  have hperm₂ := List.perm_insertionSort (fun a b : String × Nat × Nat => b.2.1 ≤ a.2.1) iter₂
  have hp12 : (List.insertionSort (fun a b : String × Nat × Nat => b.2.1 ≤ a.2.1) iter₁).Perm
      (List.insertionSort (fun a b : String × Nat × Nat => b.2.1 ≤ a.2.1) iter₂) :=
    hperm₁.trans (hp.trans hperm₂.symm)
  have hne₁ : (List.insertionSort (fun a b : String × Nat × Nat => b.2.1 ≤ a.2.1) iter₁).Pairwise
      (fun a b => a.2.1 ≠ b.2.1) := (hperm₁.pairwise_iff fun h => Ne.symm h).mpr hd
  have hne₂ : (List.insertionSort (fun a b : String × Nat × Nat => b.2.1 ≤ a.2.1) iter₂).Pairwise
      (fun a b => a.2.1 ≠ b.2.1) := (hperm₂.pairwise_iff fun h => Ne.symm h).mpr ((hp.pairwise_iff fun h => Ne.symm h).mp hd)
  have hs₁ : (List.insertionSort (fun a b : String × Nat × Nat => b.2.1 ≤ a.2.1) iter₁).Pairwise
      (fun a b => b.2.1 < a.2.1) :=
    ((List.sorted_insertionSort _ iter₁).and hne₁).imp
      (fun h => lt_of_le_of_ne h.1 (Ne.symm h.2))
  have hs₂ : (List.insertionSort (fun a b : String × Nat × Nat => b.2.1 ≤ a.2.1) iter₂).Pairwise
      (fun a b => b.2.1 < a.2.1) :=
    ((List.sorted_insertionSort _ iter₂).and hne₂).imp
      (fun h => lt_of_le_of_ne h.1 (Ne.symm h.2))
  have heq := List.eq_of_perm_of_sorted hp12 hs₁ hs₂
  simp only [ext_table, heq]

theorem claimC7_amended_witness :
    ext_table [("x", 1, 10), ("z", 2, 30)] = ext_table [("z", 2, 30), ("x", 1, 10)] :=
  claimC7_amended [("x", 1, 10), ("z", 2, 30)] [("z", 2, 30), ("x", 1, 10)]
    (by decide) (by decide)

/-- C6: the listing walk never descends through a symbolic link — a
symlink entry contributes exactly its own line, and nothing of the
directory its target may be is ever visited: the output is the same for
every possible target content (the target is universally quantified and
absent from the right-hand sides).  Likewise the statistics walker yields
a symlink as a single entry, whatever its target holds. -/
theorem claimC6 :
    (∀ n tgt rest d, list_children true (FsTree.symlink n true tgt :: rest) d =
      (Ev.entryLine d n :: (list_children true rest d).1, (list_children true rest d).2))
    ∧ (∀ n tgt d sa, list_recursive sa (FsTree.symlink n true tgt) d =
        ([Ev.entryLine d n], true))
    ∧ (∀ lim n m tgt d, walkdir_from lim (FsTree.symlink n m tgt) d =
        if withinDepth lim d then [⟨d, n, FKind.symlink, 0, m⟩] else []) := by
  refine ⟨?_, ?_, ?_⟩
  · intro n tgt rest d
    rw [list_children]
    simp [FsTree.metaOk, FsTree.isDir, FsTree.name]
  · intro n tgt d sa
    rw [list_recursive]
  · intro lim n m tgt d
    rw [walkdir_from.eq_def]

theorem charListLe_total : ∀ l₁ l₂ : List Char,
    charListLe l₁ l₂ = true ∨ charListLe l₂ l₁ = true := by
  intro l₁
  induction l₁ with
  | nil => intro l₂; left; rfl
  | cons a as ih =>
    intro l₂
    cases l₂ with
    | nil => right; rfl
    | cons b bs =>
      by_cases hab : a = b
      · subst hab
        rcases ih bs with h | h
        · left; simpa [charListLe] using h
        · right; simpa [charListLe] using h
      · rcases lt_or_gt_of_ne hab with h | h
        · left; simp [charListLe, hab, h]
        · right; simp [charListLe, Ne.symm hab, h]

theorem charListLe_trans : ∀ l₁ l₂ l₃ : List Char,
    charListLe l₁ l₂ = true → charListLe l₂ l₃ = true → charListLe l₁ l₃ = true := by
  intro l₁
  induction l₁ with
  | nil => intro l₂ l₃ h1 h2; rfl
  | cons a as ih =>
    intro l₂ l₃ h1 h2
    cases l₂ with
    | nil => simp [charListLe] at h1
    | cons b bs =>
      cases l₃ with
      | nil => simp [charListLe] at h2
      | cons c cs =>
        by_cases hab : a = b
        · subst hab
          simp only [charListLe, if_pos rfl] at h1
          by_cases hac : a = c
          · subst hac
            simp only [charListLe, if_pos rfl] at h2 ⊢
            exact ih bs cs h1 h2
          · simp only [charListLe, if_neg hac] at h2 ⊢
            exact h2
        · have hab' : a < b := by simpa [charListLe, hab] using h1
          by_cases hbc : b = c
          · subst hbc
            simp [charListLe, hab, hab']
          · have hbc' : b < c := by simpa [charListLe, hbc] using h2
            have hac' : a < c := lt_trans hab' hbc'
            simp [charListLe, ne_of_lt hac', hac']

instance : IsTotal FsTree nameLe :=
  ⟨fun a b => charListLe_total a.name.data b.name.data⟩

instance : IsTrans FsTree nameLe := ⟨fun _ _ _ h1 h2 => charListLe_trans _ _ _ h1 h2⟩

theorem metaOk_of_all_ok (e : FsTree) (h : all_ok e = true) : e.metaOk = true := by
  cases e <;> simp_all [all_ok, FsTree.metaOk, Bool.and_eq_true]

theorem all_ok_list_eq_all (l : List FsTree) : all_ok_list l = l.all all_ok := by
  induction l with
  | nil => rfl
  | cons c rest ih => simp [all_ok_list, ih]

theorem all_ok_sortByName (l : List FsTree) :
    all_ok_list (sortByName l) = all_ok_list l := by
  rw [all_ok_list_eq_all, all_ok_list_eq_all]
  refine Bool.eq_iff_iff.mpr ?_
  simp only [List.all_eq_true]
  constructor
  · intro h c hc
    exact h c ((List.mem_insertionSort nameLe).mpr hc)
  · intro h c hc
    exact h c ((List.mem_insertionSort nameLe).mp hc)

theorem ev_names_append (l r : List Ev) :
    ev_names (l ++ r) = ev_names l ++ ev_names r := by
  simp [ev_names, List.filterMap_append]

theorem ev_names_cons_entry (d : Nat) (n : String) (l : List Ev) :
    ev_names (Ev.entryLine d n :: l) = n :: ev_names l := rfl

theorem ev_names_cons_header (d : Nat) (n : String) (l : List Ev) :
    ev_names (Ev.header d n :: l) = ev_names l := rfl

/-- The refinement core: on failure-free input, `list_recursive` succeeds
and its entry lines list exactly the names the specification's
depth-first, name-sorted order prescribes (and the same for the child
loop on a failure-free list of siblings). -/
theorem list_rec_spec (sa : Bool) :
    ∀ fuel : Nat,
      (∀ t, sizeOf t ≤ fuel → all_ok t = true → ∀ d,
        (list_recursive sa t d).2 = true
        ∧ ev_names (list_recursive sa t d).1 = spec_dfs_names sa t)
      ∧ (∀ l, sizeOf l ≤ fuel → all_ok_list l = true → ∀ d,
        (list_children sa l d).2 = true
        ∧ ev_names (list_children sa l d).1 = spec_dfs_kids sa l) := by
  intro fuel
  induction fuel with
  | zero =>
    constructor
    · intro t ht
      exact absurd ht (by have := fstree_one_le_sizeOf t; omega)
    · intro l hl
      exact absurd hl (by cases l <;> simp)
  | succ n ih =>
    obtain ⟨iht, ihl⟩ := ih
    constructor
    · intro t ht hok d
      cases t with
      | file nm sz m => simp [list_recursive, spec_dfs_names, ev_names]
      | symlink nm m tg => simp [list_recursive, spec_dfs_names, ev_names]
      | dir nm cs readable m =>
        have hro : readable = true ∧ all_ok_list cs = true := by
          simp [all_ok, Bool.and_eq_true] at hok
          tauto
        obtain ⟨hr, hcs⟩ := hro
        subst hr
        have hsz : sizeOf (sortByName cs) ≤ n := by
          rw [sizeOf_sortByName]
          simp at ht
          omega
        have hall : all_ok_list (sortByName cs) = true := by
          rw [all_ok_sortByName]
          exact hcs
        obtain ⟨hc2, hc1⟩ := ihl (sortByName cs) hsz hall d
        rw [list_recursive, spec_dfs_names]
        constructor
        · simpa using hc2
        · simpa [ev_names_cons_header] using hc1
    · intro l hl hok d
      cases l with
      | nil => simp [list_children, spec_dfs_kids, ev_names]
      | cons e rest =>
        have hsz_e : sizeOf e ≤ n := by simp at hl; omega
        have hsz_r : sizeOf rest ≤ n := by simp at hl; omega
        have hokb : all_ok e = true ∧ all_ok_list rest = true := by
          simpa [all_ok_list, Bool.and_eq_true] using hok
        obtain ⟨hoke, hokr⟩ := hokb
        obtain ⟨hr2, hr1⟩ := ihl rest hsz_r hokr d
        rw [list_children, spec_dfs_kids]
        by_cases hhid : (!sa && startsWithDot e.name) = true
        · simp only [hhid, if_true]
          refine ⟨hr2, ?_⟩
          simpa using hr1
        · have hme : e.metaOk = true := metaOk_of_all_ok e hoke
          simp only [hhid, hme, if_false, if_true, Bool.false_eq_true]
          by_cases hdir : e.isDir = true
          · obtain ⟨hs2, hs1⟩ := iht e hsz_e hoke (d + 1)
            simp only [hdir, if_true, hs2]
            refine ⟨hr2, ?_⟩
            simp [ev_names_cons_entry, ev_names_append, hs1, hr1]
          · simp only [hdir, Bool.false_eq_true, if_false]
            refine ⟨hr2, ?_⟩
            simp [ev_names_cons_entry, hr1]

/-- On siblings whose metadata is readable, the non-recursive listing
loop succeeds and prints exactly the hidden-filtered names in the order
given. -/
theorem list_dir_children_spec (sa : Bool) :
    ∀ l : List FsTree, (∀ c ∈ l, FsTree.metaOk c = true) →
      (list_dir_children sa l).2 = true
      ∧ ev_names (list_dir_children sa l).1 =
          (l.filter (fun c => !(!sa && startsWithDot c.name))).map FsTree.name := by
  intro l
  induction l with
  | nil => intro _; simp [list_dir_children, ev_names]
  | cons e rest ih =>
    intro h
    have hme : e.metaOk = true := h e (List.mem_cons_self e rest)
    obtain ⟨h2, h1⟩ := ih fun c hc => h c (List.mem_cons_of_mem e hc)
    cases sa with
    | true =>
      simp [list_dir_children, hme, h2, h1, ev_names_cons_entry, List.filter_cons]
    | false =>
      cases hdot : startsWithDot e.name with
      | true => simp [list_dir_children, hdot, h2, h1, List.filter_cons]
      | false =>
        simp [list_dir_children, hdot, hme, h2, h1, ev_names_cons_entry, List.filter_cons]

/-- C4: on failure-free input, the recursive listing succeeds and emits
exactly the depth-first, name-sorted sequence the specification
prescribes: at each directory the (hidden-filtered) children appear in
ascending file-name order — `sortByName` really sorts ascending by name —
and each subdirectory's subtree follows its own line, depth first.  The
non-recursive `list_directory` likewise prints the sorted, filtered
children of its directory argument. -/
theorem claimC4 (sa : Bool) (t : FsTree) (d : Nat) (l : List FsTree)
    (n : String) (cs : List FsTree) (r m : Bool)
    (hok : all_ok t = true) (hokd : all_ok (FsTree.dir n cs r m) = true) :
    ((list_recursive sa t d).2 = true
      ∧ ev_names (list_recursive sa t d).1 = spec_dfs_names sa t)
    ∧ List.Sorted nameLe (sortByName l)
    ∧ ev_names (list_directory sa (FsTree.dir n cs r m)).1 =
        ((sortByName cs).filter (fun c => !(!sa && startsWithDot c.name))).map FsTree.name := by
  refine ⟨(list_rec_spec sa (sizeOf t)).1 t le_rfl hok d,
    List.sorted_insertionSort nameLe l, ?_⟩
  have hro : r = true ∧ all_ok_list cs = true := by
    simp [all_ok, Bool.and_eq_true] at hokd
    tauto
  obtain ⟨hr, hcs⟩ := hro
  subst hr
  have hmem : ∀ c ∈ sortByName cs, FsTree.metaOk c = true := by
    intro c hc
    have hcin : c ∈ cs := (List.mem_insertionSort nameLe).mp hc
    rw [all_ok_list_eq_all] at hcs
    exact metaOk_of_all_ok c (List.all_eq_true.mp hcs c hcin)
  have hld : list_directory sa (FsTree.dir n cs true m) =
      list_dir_children sa (sortByName cs) := rfl
  rw [hld]
  exact (list_dir_children_spec sa (sortByName cs) hmem).2

theorem claimC4_witness :
    ((list_recursive false sampleOk 0).2 = true
      ∧ ev_names (list_recursive false sampleOk 0).1 = spec_dfs_names false sampleOk)
    ∧ List.Sorted nameLe (sortByName sampleOkKids)
    ∧ ev_names (list_directory false (FsTree.dir "r" sampleOkKids true true)).1 =
        ((sortByName sampleOkKids).filter
          (fun c => !(!false && startsWithDot c.name))).map FsTree.name :=
  claimC4 false sampleOk 0 sampleOkKids "r" sampleOkKids true true (by decide) (by decide)
